import Mathlib

/-!
Shallow embedding of the thimble fuzzy-vault "bake/brake" recovery core:

* `src/src/FuzzyVaultBrake.cpp` — `FuzzyVaultBrake::decode` (hash-free
  random-sampling majority vote), `FuzzyVaultBrake::open`,
  `FuzzyVaultBrake::getf0`;
* `src/src/Permutation.cpp` — the `thimble::Permutation` class
  (`setDimension`, `eval`, `exchange`, `random`, `mul`, `inv`, `swap`).

Design of the embedding:

* The finite field `SmallBinaryField` is an external collaborator of this
  core; we model it as an arbitrary `Field F` with decidable equality.
  A `SmallBinaryFieldPolynomial` is modelled as its coefficient list
  (`List F`, index = power of X); a polynomial of degree `< k` is a
  coefficient list of length `≤ k`.
* `interpolate` (external collaborator `SmallBinaryFieldPolynomial::
  interpolate(a, b, k)`) is modelled by concrete Lagrange interpolation on
  coefficient lists, which satisfies the collaborator's contract: the
  result of interpolating `k` points is a polynomial of degree `< k`.
* The process-wide random source (`FuzzyVaultTools::fastChooseIndicesAtRandom`
  and `MathTools::rand32`) is threaded through explicitly as a function
  argument, so every definition is deterministic in its inputs.
* C++ `exit(EXIT_FAILURE)` on a violated precondition is modelled as
  `Option`/`Except` failure (`none` / a typed error value).
* C++ machine integers: loop counters are `Nat`; `int` parameters whose
  sign or overflow behaviour matters (`n`, `k`, `maxIts`) are `Int`, with
  the implicit conversion `(uint64_t)maxIts` of the loop bound made
  explicit as a reduction modulo `2 ^ 64`.
-/

namespace Thimble

/-! ### Coefficient-list polynomials over a field -/

section Poly

variable {F : Type} [Field F] [DecidableEq F]

/-- Evaluation of a coefficient list at a point (Horner's scheme);
models `SmallBinaryFieldPolynomial::eval`. -/
def polyEval (p : List F) (t : F) : F :=
  p.foldr (fun c acc => c + t * acc) 0

/-- Coefficient-wise sum of two polynomials. -/
def polyAdd : List F → List F → List F
  | [], q => q
  | p, [] => p
  | a :: p, b :: q => (a + b) :: polyAdd p q

/-- Scalar multiple of a polynomial. -/
def polyScale (c : F) (p : List F) : List F :=
  p.map (fun a => c * a)

/-- Multiplication of a polynomial by the linear factor `(X - r)`. -/
def polyMulLin (r : F) (p : List F) : List F :=
  polyAdd (polyScale (-r) p) ((0 : F) :: p)

/-- The monic polynomial `∏ (X - r)` over a list of roots. -/
def prodLin (roots : List F) : List F :=
  roots.foldr (fun r acc => polyMulLin r acc) [1]

/-- Denominator `∏ (xi - xj)` of the Lagrange basis polynomial at `xi`. -/
def lagDenom (xi : F) (others : List F) : F :=
  (others.map (fun xj => xi - xj)).prod

/-- Lagrange interpolation through the points `(xs i, ys i)`, on
coefficient lists; models the external collaborator
`SmallBinaryFieldPolynomial::interpolate(a, b, k)` (with `k = xs.length`),
whose contract is to produce the unique polynomial of degree `< k`
through `k` points with pairwise-distinct abscissas. -/
def interpolate (xs ys : List F) : List F :=
  (List.range xs.length).foldr
    (fun i acc =>
      polyAdd
        (polyScale (ys.getD i 0 * (lagDenom (xs.getD i 0) (xs.eraseIdx i))⁻¹)
          (prodLin (xs.eraseIdx i)))
        acc)
    []
end Poly
/-! ### `FuzzyVaultBrake::decode` -/

section Decode

variable {F : Type} [Field F] [DecidableEq F]

/-- The vote tally `unordered_map<uint32_t, int> result`, modelled as an
association list from constant-term value to occurrence count. -/
def tallyGet (t : List (F × Nat)) (v : F) : Option Nat :=
  match t with
  | [] => none
  | p :: rest => if p.1 = v then some p.2 else tallyGet rest v

/-- The increment-or-insert update
`if (result.count(f0) == 0) result[f0] = 1; else result[f0]++;`. -/
def tallyIncr (t : List (F × Nat)) (v : F) : List (F × Nat) :=
  match t with
  | [] => [(v, 1)]
  | p :: rest => if p.1 = v then (p.1, p.2 + 1) :: rest else p :: tallyIncr rest v

/-- The loop state of `FuzzyVaultBrake::decode`: the tally `result`, the
current leader `max = (maxVal, maxCnt)` (count `-1` while no leader is
set), the output polynomial `f`, and the loop counter `it`. -/
structure DecodeState (F : Type) where
  result : List (F × Nat)
  maxVal : F
  maxCnt : Int
  f : List F
  its : Nat
deriving DecidableEq

/-- One iteration's candidate polynomial: gather the `k` vault points
selected by the sampled index list `idx` and interpolate them
(`a[i] = x[indices[i]]; b[i] = y[indices[i]];
candidatePolynomial.interpolate(a, b, k)`). -/
def candidateOf (x y : List F) (k : Nat) (idx : List Nat) : List F :=
  interpolate
    ((List.range k).map (fun i => x.getD (idx.getD i 0) 0))
    ((List.range k).map (fun i => y.getD (idx.getD i 0) 0))

/-- The candidate's constant term `f0 = candidatePolynomial.eval(0)`. -/
def f0Of (x y : List F) (k : Nat) (idx : List Nat) : F :=
  polyEval (candidateOf x y k idx) 0

/-- One iteration of the decode loop body.  `draws s.its` is the index
list produced by `FuzzyVaultTools::fastChooseIndicesAtRandom` at
iteration `s.its`. -/
def decodeStep (x y : List F) (k : Nat) (draws : Nat → List Nat)
    (s : DecodeState F) : DecodeState F :=
  let idx := draws s.its
  let cand := candidateOf x y k idx
  let f0 := f0Of x y k idx
  let result := tallyIncr s.result f0
  let newCnt := (tallyGet result f0).getD 0
  if s.maxCnt = -1 ∨ (f0 ≠ s.maxVal ∧ (newCnt : Int) > s.maxCnt) then
    { result := result, maxVal := f0, maxCnt := (newCnt : Int),
      f := cand, its := s.its + 1 }
  else
    { s with result := result, its := s.its + 1 }

/-- `m` iterations of the decode loop. -/
def decodeLoop (x y : List F) (k : Nat) (draws : Nat → List Nat) :
    Nat → DecodeState F → DecodeState F
  | 0, s => s
  | m + 1, s => decodeLoop x y k draws m (decodeStep x y k draws s)

/-- The value of `RAND_MAX` assumed by the sampler range check
(`n > RAND_MAX`), the maximum of a 31-bit signed `int`. -/
def RAND_MAX_C : Int := 2147483647

/-- The number of iterations the loop
`for (uint64_t it = 0; it < maxIts; it++)` actually executes: the signed
`int` bound `maxIts` is converted to `uint64_t` by the comparison, i.e.
reduced modulo `2 ^ 64`. -/
def effIts (maxIts : Int) : Nat :=
  (maxIts % (2 : Int) ^ 64).toNat

/-- `FuzzyVaultBrake::decode(f, x, y, n, k, hash, maxIts)`.

`none` models the fatal `exit(EXIT_FAILURE)` on a violated precondition
(`n > RAND_MAX`, or `n ≤ 0 ∨ k ≤ 0 ∨ k > n`).  On the non-fatal path the
result is `some (true, f, it)`: the returned boolean (always `true`), the
final contents of the output parameter `f` (initially `finit`, the
caller's polynomial, reassigned only when the leader changes), and the
final loop counter.  The `hashArg` parameter is the unused
`const uint8_t hash[20]` argument. -/
def decode (x y : List F) (n k : Int) (hashArg : List Nat) (maxIts : Int)
    (draws : Nat → List Nat) (finit : List F) : Option (Bool × List F × Nat) :=
  if n > RAND_MAX_C then none
  else if n ≤ 0 ∨ k ≤ 0 ∨ k > n then none
  else
    some (true,
      (decodeLoop x y k.toNat draws (effIts maxIts)
        { result := [], maxVal := 0, maxCnt := -1, f := finit, its := 0 }).f,
      (decodeLoop x y k.toNat draws (effIts maxIts)
        { result := [], maxVal := 0, maxCnt := -1, f := finit, its := 0 }).its)

end Decode
/-! ### A tiny concrete field for witnesses

`GF2` is the two-element field with kernel-reducible operations, used to
instantiate the abstract `SmallBinaryField` collaborator in witnesses. -/

inductive GF2 where
  | O : GF2
  | I : GF2
deriving DecidableEq, Fintype

namespace GF2

instance : Add GF2 := ⟨fun a b => match a, b with
  | O, x => x
  | I, O => I
  | I, I => O⟩

instance : Mul GF2 := ⟨fun a b => match a, b with
  | O, _ => O
  | I, x => x⟩

instance : Neg GF2 := ⟨fun a => a⟩

instance : Inv GF2 := ⟨fun a => a⟩

instance : Zero GF2 := ⟨O⟩

instance : One GF2 := ⟨I⟩

instance : Field GF2 :=
  Field.ofMinimalAxioms GF2
    (by decide) (by decide) (by decide) (by decide) (by decide) (by decide)
    (by decide) (by decide) (by decide) ⟨O, I, by decide⟩

end GF2
/-! ### `thimble::Permutation`

The permutation's `int* data` array is modelled as a `List Nat` (every
value a reachable `Permutation` stores is an element of `{0, …, n-1}`);
its dimension `n` is the list's length.  `exit(EXIT_FAILURE)` (and the
`throw 1` in `eval`) on an out-of-range argument is modelled as `none`.
The uninitialised `malloc` buffer that `inv` writes into is modelled as
a zero-filled buffer; for a valid input permutation every slot is
overwritten, so the initial contents are irrelevant. -/

namespace Permutation

/-- `Permutation::eval(x)`: returns `π(x)`, failing (RangeError) when
`x` is outside `[0, n)`. -/
def eval (l : List Nat) (x : Nat) : Option Nat :=
  if x < l.length then some (l.getD x 0) else none

/-- `Permutation::exchange(x0, x1)`: swaps the outputs `π(x0)` and
`π(x1)`, composing via two `eval` calls (propagating their failure). -/
def exchange (l : List Nat) (x0 x1 : Nat) : Option (List Nat) := do
  let y0 ← eval l x0
  let y1 ← eval l x1
  some ((l.set x0 y1).set x1 y0)

/-- `Permutation::setDimension(n)`: the identity permutation on `n`
elements, failing (DimensionError) when `n < 0`. -/
def setDimension (n : Int) : Option (List Nat) :=
  if n < 0 then none else some (List.range n.toNat)

/-- `Permutation::random(tryRandom)`: for each `i` from `0` to `n-1`,
draw `j = rand32() % n` from the entire range `[0, n)` and
`exchange(i, j)`.  The random source is the explicit `rand` argument. -/
def random (l : List Nat) (rand : Nat → Nat) : Option (List Nat) :=
  (List.range l.length).foldlM
    (fun r i => exchange r i (rand i % l.length)) l

/-- `Permutation::mul(R, P, Q)`: `R(x) = P(Q(x))`, failing
(DimensionMismatch) when the dimensions differ.  The C++ aliasing guard
(computing into a temporary and swapping) is the identity on values in
this pure model. -/
def mul (p q : List Nat) : Option (List Nat) :=
  if p.length ≠ q.length then none
  else (List.range p.length).mapM (fun x => do
    let y ← eval q x
    eval p y)

/-- `Permutation::inv(R, P)`: writes `R.data[P.eval(x)] = x` for each
`x`; the C++ aliasing guard (`inv(P, P)` copies `P` first) is the
identity on values in this pure model. -/
def inv (p : List Nat) : List Nat :=
  (List.range p.length).foldl (fun r x => r.set (p.getD x 0) x)
    (List.replicate p.length 0)

/-- `Permutation::swap(P, Q)`: exchanges the two permutations' internal
state (ownership transfer). -/
def swap (p q : List Nat) : List Nat × List Nat := (q, p)

/-- The class invariant: the value array is a rearrangement of
`0, …, n-1` — every value appears exactly once. -/
def isPerm (l : List Nat) : Prop := List.Perm l (List.range l.length)

instance (l : List Nat) : Decidable (isPerm l) := by
  unfold isPerm
  infer_instance

end Permutation

/-! ### `FuzzyVaultBrake::open` and `FuzzyVaultBrake::getf0` -/

section OpenVault

variable {F : Type} [Field F] [DecidableEq F]

/-- The typed errors for the `exit(EXIT_FAILURE)` calls on `open`'s
path: the three `StateError`s and `decode`'s fatal precondition
failure. -/
inductive OpenError where
  | notEnrolled : OpenError
  | stillEncrypted : OpenError
  | unsupportedSlowDown : OpenError
  | decodePrecondition : OpenError
deriving DecidableEq

/-- Modelled from the spec: the observable state of the enclosing
`ProtectedMinutiaeTemplate` that `open` consults.  The base class is not
among the given source files; its interface is taken from the spec
(§4.4, §6): the state predicates `isEnrolled`/`isEncrypted`, the
slow-down factor (a big integer, here `Int`), the unpacked committed
vault polynomial, the reorder permutation `_reorder` on field elements,
the configured secret size `k`, the iteration budget `D`, and the
stored 20-byte `hash` field that the brake variant no longer uses. -/
structure VaultState (F : Type) where
  isEnrolled : Bool
  isEncrypted : Bool
  slowDownFactor : Int
  vaultPoly : List F
  reorder : F → F
  k : Int
  D : Int
  storedHash : List Nat

/-- `FuzzyVaultBrake::open(f, view)`.  The external quantizer's output
for the query `view` is passed in directly as `quantized` (`t` feature
elements); the unlocking set is `x[j] = reorder(B[j])`,
`y[j] = V.eval(x[j])`, and the call then delegates to `decode` with
`n = t`, the vault's `k`, stored hash and budget `D`.  Each
`exit(EXIT_FAILURE)` guard becomes a typed error. -/
def openVault (v : VaultState F) (quantized : List F)
    (draws : Nat → List Nat) (finit : List F) :
    Except OpenError (Bool × List F) :=
  if v.isEnrolled = false then .error .notEnrolled
  else if v.isEncrypted = true then .error .stillEncrypted
  else if v.slowDownFactor ≠ 1 then .error .unsupportedSlowDown
  else
    match decode (quantized.map v.reorder)
        ((quantized.map v.reorder).map (polyEval v.vaultPoly))
        (quantized.length : Int) v.k v.storedHash v.D draws finit with
    | none => .error .decodePrecondition
    | some (b, fOut, _) => .ok (b, fOut)

/-- `FuzzyVaultBrake::getf0(view)`: runs `open` on a freshly constructed
(zero) polynomial; if `open` returns `false` the reserved sentinel
`(uint32_t)(-1) = 0xFFFFFFFF` is returned, otherwise the `uint32`
encoding (`enc`) of the recovered polynomial's constant term `f.eval(0)`. -/
def getf0 (enc : F → Nat) (v : VaultState F) (quantized : List F)
    (draws : Nat → List Nat) : Except OpenError Nat :=
  match openVault v quantized draws [] with
  | .error e => .error e
  | .ok (success, fOut) =>
    if success = false then .ok 4294967295 else .ok (enc (polyEval fOut 0))

end OpenVault

/-! ### Concrete scenario definitions for the C4 displacement run -/

/-- Concrete unlocking set for the C4 displacement scenario over `GF2`
(`k = 1`, so the candidate interpolated from index `j` is the constant
polynomial `y[j]`). -/
def xC4 : List GF2 := [0, 0, 0, 0, 0]

/-- Ordinates for the C4 scenario: the constant-term sequence sampled by
`drawsC4` is `1, 1, 1, 0, 0`. -/
def yC4 : List GF2 := [1, 1, 1, 0, 0]

/-- Index draws for the C4 scenario: iteration `it` samples point `it`. -/
def drawsC4 : Nat → List Nat := fun it => [it]

/-- Final decode-loop state of the C4 scenario after its 5 iterations. -/
def sC4 : DecodeState GF2 :=
  decodeLoop xC4 yC4 1 drawsC4 5
    { result := [], maxVal := 0, maxCnt := -1, f := [], its := 0 }

/-! ### Lemmas about coefficient-list polynomials -/

section PolyLemmas

variable {F : Type} [Field F] [DecidableEq F]

theorem polyAdd_length (p q : List F) :
    (polyAdd p q).length = max p.length q.length := by
  induction p generalizing q with
  | nil => simp [polyAdd]
  | cons a p ih =>
    cases q with
    | nil => simp [polyAdd]
    | cons b q => simp [polyAdd, ih, Nat.succ_max_succ]

theorem polyScale_length (c : F) (p : List F) :
    (polyScale c p).length = p.length := by
  simp [polyScale]

theorem prodLin_length (roots : List F) :
    (prodLin roots).length = roots.length + 1 := by
  induction roots with
  | nil => simp [prodLin]
  | cons r roots ih =>
    simp [prodLin, polyMulLin, polyAdd_length, polyScale_length] at ih ⊢
    omega

/-- Interpolating through `k` points yields a coefficient list of length
at most `k`, i.e. a polynomial of degree strictly less than `k`. -/
theorem interpolate_length (xs ys : List F) :
    (interpolate xs ys).length ≤ xs.length := by
  unfold interpolate
  have h : ∀ l : List Nat, (∀ i ∈ l, i < xs.length) →
      (l.foldr (fun i acc =>
        polyAdd
          (polyScale (ys.getD i 0 * (lagDenom (xs.getD i 0) (xs.eraseIdx i))⁻¹)
            (prodLin (xs.eraseIdx i)))
        acc) []).length ≤ xs.length := by
    intro l hl
    induction l with
    | nil => simp
    | cons i l ih =>
      have hi : i < xs.length := hl i (List.mem_cons_self i l)
      have hrest := ih (fun j hj => hl j (List.mem_cons_of_mem i hj))
      have herase : (xs.eraseIdx i).length = xs.length - 1 := by
        simp [List.length_eraseIdx, hi]
      simp only [List.foldr_cons, polyAdd_length, polyScale_length,
        prodLin_length, herase, max_le_iff]
      omega
  exact h (List.range xs.length) (by simp)

end PolyLemmas

/-! ### Lemmas about the decode loop -/

section DecodeLemmas

variable {F : Type} [Field F] [DecidableEq F]

theorem tallyGet_tallyIncr_self (t : List (F × Nat)) (v : F) :
    tallyGet (tallyIncr t v) v = some ((tallyGet t v).getD 0 + 1) := by
  induction t with
  | nil => simp [tallyGet, tallyIncr]
  | cons p rest ih =>
    by_cases h : p.1 = v
    · simp [tallyGet, tallyIncr, h]
    · simp [tallyGet, tallyIncr, h, ih]

theorem candidateOf_length (x y : List F) (k : Nat) (idx : List Nat) :
    (candidateOf x y k idx).length ≤ k := by
  have h := interpolate_length
    ((List.range k).map (fun i => x.getD (idx.getD i 0) 0))
    ((List.range k).map (fun i => y.getD (idx.getD i 0) 0))
  simpa [candidateOf] using h

theorem decodeStep_its (x y : List F) (k : Nat) (draws : Nat → List Nat)
    (s : DecodeState F) : (decodeStep x y k draws s).its = s.its + 1 := by
  simp only [decodeStep]
  split <;> rfl

theorem decodeStep_f_length (x y : List F) (k : Nat) (draws : Nat → List Nat)
    (s : DecodeState F) (h : s.f.length ≤ k) :
    (decodeStep x y k draws s).f.length ≤ k := by
  simp only [decodeStep]
  split
  · exact candidateOf_length x y k (draws s.its)
  · exact h

theorem decodeStep_noLeader_f_length (x y : List F) (k : Nat)
    (draws : Nat → List Nat) (s : DecodeState F) (h : s.maxCnt = -1) :
    (decodeStep x y k draws s).f.length ≤ k := by
  simp only [decodeStep]
  rw [if_pos (Or.inl h)]
  exact candidateOf_length x y k (draws s.its)

theorem decodeLoop_its (x y : List F) (k : Nat) (draws : Nat → List Nat)
    (m : Nat) (s : DecodeState F) :
    (decodeLoop x y k draws m s).its = s.its + m := by
  induction m generalizing s with
  | zero => simp [decodeLoop]
  | succ m ih =>
    rw [decodeLoop, ih, decodeStep_its]
    omega

theorem decodeLoop_f_length (x y : List F) (k : Nat) (draws : Nat → List Nat)
    (m : Nat) (s : DecodeState F) (h : s.f.length ≤ k) :
    (decodeLoop x y k draws m s).f.length ≤ k := by
  induction m generalizing s with
  | zero => exact h
  | succ m ih => exact ih _ (decodeStep_f_length x y k draws s h)

end DecodeLemmas

/-! ### Claim theorems about `decode` -/

/-- C1: for every unlocking set of `n` field-element pairs and every
valid `1 ≤ k ≤ n` and `maxIts ≥ 1` (with `n` within the sampler's range
`n ≤ RAND_MAX` and `maxIts` within `int` range), `decode` runs exactly
`maxIts` sampling iterations, returns `true`, and leaves in the output
parameter `f` a polynomial of degree strictly less than `k`, i.e. a
coefficient list of length at most `k`. -/
theorem decode_valid_runs_maxIts_success_deg_lt_k
    (F : Type) [Field F] [DecidableEq F] (x y : List F) (n k : Int)
    (hashArg : List Nat) (maxIts : Int) (draws : Nat → List Nat)
    (finit : List F) (hk : 1 ≤ k) (hkn : k ≤ n) (hm : 1 ≤ maxIts)
    (hmInt : maxIts ≤ RAND_MAX_C) (hn : n ≤ RAND_MAX_C) :
    ∃ fOut : List F,
      decode x y n k hashArg maxIts draws finit =
        some (true, fOut, maxIts.toNat) ∧ fOut.length ≤ k.toNat := by
  have hmInt' : maxIts ≤ 2147483647 := by simpa [RAND_MAX_C] using hmInt
  have heff : effIts maxIts = maxIts.toNat := by
    unfold effIts
    have hp : (2 : Int) ^ 64 = 18446744073709551616 := by norm_num
    rw [hp]
    omega
  have hn1 : ¬ (n > RAND_MAX_C) := not_lt.mpr hn
  have hcheck : ¬ (n ≤ 0 ∨ k ≤ 0 ∨ k > n) := by push_neg; omega
  unfold decode
  rw [if_neg hn1, if_neg hcheck]
  obtain ⟨m, hm'⟩ : ∃ m, effIts maxIts = m + 1 := by
    refine ⟨maxIts.toNat - 1, ?_⟩
    rw [heff]
    omega
  refine ⟨(decodeLoop x y k.toNat draws (effIts maxIts)
    { result := [], maxVal := 0, maxCnt := -1, f := finit, its := 0 }).f,
    ?_, ?_⟩
  · rw [decodeLoop_its, heff]
    simp
  · rw [hm', decodeLoop]
    exact decodeLoop_f_length x y k.toNat draws m _
      (decodeStep_noLeader_f_length x y k.toNat draws _ rfl)

/-- Witness for C1 at a concrete input over `GF2`:
`n = 2`, `k = 1`, `maxIts = 3`. -/
theorem decode_valid_runs_maxIts_success_deg_lt_k_witness :
    ∃ fOut : List GF2,
      decode [0, 1] [1, 0] 2 1 [] 3 (fun it => [it % 2]) [] =
        some (true, fOut, (3 : Int).toNat) ∧ fOut.length ≤ (1 : Int).toNat :=
  decode_valid_runs_maxIts_success_deg_lt_k GF2 [0, 1] [1, 0] 2 1 [] 3
    (fun it => [it % 2]) [] (by decide) (by decide) (by decide)
    (by decide) (by decide)

/-- C2 (failing input): `decode` does not validate `maxIts = 0`.  With a
zero iteration budget the loop body never runs and `decode` silently
returns success with the output polynomial still holding the caller's
initial contents (here the marker `[1, 1, 1]`), instead of rejecting the
call as a precondition violation. -/
theorem decode_maxIts_zero_silent_success :
    decode (F := GF2) [0] [1] 1 1 [] 0 (fun _ => [0]) [1, 1, 1] =
      some (true, [1, 1, 1], 0) := by decide

/-- C3: in one decode iteration the tally count for the candidate's
constant term `f0` is incremented, and afterwards the leader
`(maxVal, maxCnt)` together with the output polynomial `f` is replaced
exactly when no leader is set yet (`maxCnt = -1`) or the new tally count
for `f0` exceeds the leader's stored count while `f0` differs from the
leader's value; in every other case the leader and the output polynomial
are left unchanged. -/
theorem decodeStep_leader_update_rule
    (F : Type) [Field F] [DecidableEq F] (x y : List F) (k : Nat)
    (draws : Nat → List Nat) (s : DecodeState F) :
    tallyGet (tallyIncr s.result (f0Of x y k (draws s.its)))
        (f0Of x y k (draws s.its)) =
      some ((tallyGet s.result (f0Of x y k (draws s.its))).getD 0 + 1) ∧
    ((s.maxCnt = -1 ∨ (f0Of x y k (draws s.its) ≠ s.maxVal ∧
        ((tallyGet (tallyIncr s.result (f0Of x y k (draws s.its)))
          (f0Of x y k (draws s.its))).getD 0 : Int) > s.maxCnt)) →
      decodeStep x y k draws s =
        { result := tallyIncr s.result (f0Of x y k (draws s.its)),
          maxVal := f0Of x y k (draws s.its),
          maxCnt := ((tallyGet (tallyIncr s.result (f0Of x y k (draws s.its)))
            (f0Of x y k (draws s.its))).getD 0 : Int),
          f := candidateOf x y k (draws s.its),
          its := s.its + 1 }) ∧
    (¬ (s.maxCnt = -1 ∨ (f0Of x y k (draws s.its) ≠ s.maxVal ∧
        ((tallyGet (tallyIncr s.result (f0Of x y k (draws s.its)))
          (f0Of x y k (draws s.its))).getD 0 : Int) > s.maxCnt)) →
      decodeStep x y k draws s =
        { result := tallyIncr s.result (f0Of x y k (draws s.its)),
          maxVal := s.maxVal, maxCnt := s.maxCnt, f := s.f,
          its := s.its + 1 }) := by
  refine ⟨tallyGet_tallyIncr_self s.result (f0Of x y k (draws s.its)), ?_, ?_⟩
  · intro hcond
    simp only [decodeStep]
    rw [if_pos hcond]
  · intro hcond
    simp only [decodeStep]
    rw [if_neg hcond]

/-- Witness for C3 at concrete states over `GF2`: one state where the
leader is replaced (no leader set yet) and one where it is kept (same
`f0` as the leader). -/
theorem decodeStep_leader_update_rule_witness :
    decodeStep (F := GF2) [0] [1] 1 (fun _ => [0])
        { result := [], maxVal := 0, maxCnt := -1, f := [], its := 0 } =
      { result := [(1, 1)], maxVal := 1, maxCnt := 1, f := [1], its := 1 } ∧
    decodeStep (F := GF2) [0] [1] 1 (fun _ => [0])
        { result := [(1, 1)], maxVal := 1, maxCnt := 1, f := [1], its := 1 } =
      { result := [(1, 2)], maxVal := 1, maxCnt := 1, f := [1], its := 2 } := by
  constructor
  · have h := (decodeStep_leader_update_rule GF2 [0] [1] 1 (fun _ => [0])
      { result := [], maxVal := 0, maxCnt := -1, f := [], its := 0 }).2.1
      (by decide)
    rw [h]
    decide
  · have h := (decodeStep_leader_update_rule GF2 [0] [1] 1 (fun _ => [0])
      { result := [(1, 1)], maxVal := 1, maxCnt := 1, f := [1], its := 1 }).2.2
      (by decide)
    rw [h]
    decide

/-- C4: the leader's stored count is set only at the moment a value
becomes the leader and is never refreshed when the leading value itself
receives further votes (first conjunct, about one iteration); as a
consequence there is a sequence of sampled constant terms — here
`1, 1, 1, 0, 0` — for which the polynomial `decode` returns has constant
term `0` with a final tally of `2`, while the value `1` holds the
strictly larger final tally `3`: a value with strictly fewer total votes
displaces the leader. -/
theorem decode_leader_count_stale_displacement :
    (∀ (F : Type) (iF : Field F) (iD : DecidableEq F) (x y : List F)
      (k : Nat) (draws : Nat → List Nat) (s : DecodeState F),
      f0Of x y k (draws s.its) = s.maxVal → s.maxCnt ≠ -1 →
        (decodeStep x y k draws s).maxCnt = s.maxCnt ∧
        (decodeStep x y k draws s).f = s.f ∧
        tallyGet (decodeStep x y k draws s).result s.maxVal =
          some ((tallyGet s.result s.maxVal).getD 0 + 1)) ∧
    decode xC4 yC4 5 1 [] 5 drawsC4 [] = some (true, sC4.f, 5) ∧
    polyEval sC4.f 0 = 0 ∧
    tallyGet sC4.result 0 = some 2 ∧
    tallyGet sC4.result 1 = some 3 := by
  refine ⟨?_, by decide, by decide, by decide, by decide⟩
  intro F iF iD x y k draws s hsame hset
  have hnot : ¬ (s.maxCnt = -1 ∨ (f0Of x y k (draws s.its) ≠ s.maxVal ∧
      ((tallyGet (tallyIncr s.result (f0Of x y k (draws s.its)))
        (f0Of x y k (draws s.its))).getD 0 : Int) > s.maxCnt)) := by
    push_neg
    refine ⟨hset, fun hne => absurd hsame hne⟩
  have hstep : decodeStep x y k draws s =
      { result := tallyIncr s.result (f0Of x y k (draws s.its)),
        maxVal := s.maxVal, maxCnt := s.maxCnt, f := s.f,
        its := s.its + 1 } := by
    simp only [decodeStep]
    rw [if_neg hnot]
  rw [hstep]
  refine ⟨rfl, rfl, ?_⟩
  rw [hsame]
  exact tallyGet_tallyIncr_self s.result s.maxVal

/-- Witness for C4's universally quantified conjunct, at a concrete
state over `GF2` whose leader `1` (stored count `1`) receives another
vote: the stored count stays `1` while the tally moves to `2`. -/
theorem decode_leader_count_stale_displacement_witness :
    (decodeStep (F := GF2) [0] [1] 1 (fun _ => [0])
      { result := [(1, 1)], maxVal := 1, maxCnt := 1, f := [1], its := 1 }).maxCnt = 1 ∧
    (decodeStep (F := GF2) [0] [1] 1 (fun _ => [0])
      { result := [(1, 1)], maxVal := 1, maxCnt := 1, f := [1], its := 1 }).f = [1] ∧
    tallyGet (decodeStep (F := GF2) [0] [1] 1 (fun _ => [0])
      { result := [(1, 1)], maxVal := 1, maxCnt := 1, f := [1], its := 1 }).result 1 =
      some ((tallyGet (F := GF2) [(1, 1)] 1).getD 0 + 1) :=
  decode_leader_count_stale_displacement.1 GF2 inferInstance inferInstance
    [0] [1] 1 (fun _ => [0])
    { result := [(1, 1)], maxVal := 1, maxCnt := 1, f := [1], its := 1 }
    (by decide) (by decide)

/-- C5: `decode` never reads or writes a stored hash of the secret
polynomial: two calls that differ only in the `hash` argument return the
identical boolean and output polynomial (indeed the identical whole
result), for the same `x`, `y`, `n`, `k`, `maxIts` and random draws. -/
theorem decode_independent_of_hash
    (F : Type) [Field F] [DecidableEq F] (x y : List F) (n k : Int)
    (hash1 hash2 : List Nat) (maxIts : Int) (draws : Nat → List Nat)
    (finit : List F) :
    decode x y n k hash1 maxIts draws finit =
      decode x y n k hash2 maxIts draws finit := rfl

/-- C10: `decode` does not validate the sign of `maxIts`.  The loop
compares the unsigned 64-bit counter `it` against `maxIts`, converting
the signed `int` to `uint64_t`, so for every negative `maxIts` the
effective iteration bound is `maxIts mod 2^64 = maxIts + 2^64` — about
`2^64` iterations, not zero — and the preconditions do not reject the
call. -/
theorem decode_negative_maxIts_wraps (maxIts : Int)
    (hlo : -2147483648 ≤ maxIts) (hneg : maxIts < 0) :
    effIts maxIts = (maxIts + 2 ^ 64).toNat ∧
    2 ^ 63 < effIts maxIts ∧
    (∀ (F : Type) (iF : Field F) (iD : DecidableEq F) (x y : List F)
      (n k : Int) (hashArg : List Nat) (draws : Nat → List Nat)
      (finit : List F), ¬ n > RAND_MAX_C → ¬ (n ≤ 0 ∨ k ≤ 0 ∨ k > n) →
      decode x y n k hashArg maxIts draws finit ≠ none) := by
  have heff : effIts maxIts = (maxIts + 2 ^ 64).toNat := by
    unfold effIts
    have hp : (2 : Int) ^ 64 = 18446744073709551616 := by norm_num
    rw [hp]
    omega
  refine ⟨heff, by rw [heff]; omega, ?_⟩
  intro F iF iD x y n k hashArg draws finit hn1 hcheck
  unfold decode
  rw [if_neg hn1, if_neg hcheck]
  exact Option.some_ne_none _

/-- Witness for C10 at `maxIts = -1`: the loop bound wraps to
`2^64 - 1` and a call with valid `n = 1`, `k = 1` is not rejected. -/
theorem decode_negative_maxIts_wraps_witness :
    effIts (-1) = ((-1 : Int) + 2 ^ 64).toNat ∧
    2 ^ 63 < effIts (-1) ∧
    decode (F := GF2) [0] [1] 1 1 [] (-1) (fun _ => [0]) [] ≠ none := by
  have h := decode_negative_maxIts_wraps (-1) (by decide) (by decide)
  exact ⟨h.1, h.2.1, h.2.2 GF2 inferInstance inferInstance [0] [1] 1 1 []
    (fun _ => [0]) [] (by decide) (by decide)⟩

/-! ### Lemmas about `thimble::Permutation` -/

namespace Permutation

theorem getD_set_self (l : List Nat) (i a : Nat) (h : i < l.length) :
    (l.set i a).getD i 0 = a := by
  rw [List.getD_eq_getElem _ _ (by simpa using h)]
  simp [List.getElem_set, h]

theorem getD_set_ne (l : List Nat) (i j a : Nat) (h : i ≠ j) :
    (l.set i a).getD j 0 = l.getD j 0 := by
  simp [List.getD_eq_getElem?_getD, List.getElem?_set_ne h]

theorem count_set_add (l : List Nat) (i a v : Nat) (h : i < l.length) :
    (l.set i a).count v + (if l.getD i 0 = v then 1 else 0) =
      l.count v + (if a = v then 1 else 0) := by
  induction l generalizing i with
  | nil => simp at h
  | cons b t ih =>
    cases i with
    | zero =>
      simp only [List.set_cons_zero, List.getD_cons_zero, List.count_cons]
      by_cases h1 : b = v <;> by_cases h2 : a = v <;>
        simp [h1, h2, beq_iff_eq] <;> omega
    | succ i =>
      have h' : i < t.length := by simpa using h
      have hrec := ih i h'
      simp only [List.set_cons_succ, List.getD_cons_succ, List.count_cons]
      by_cases hb : b = v <;> simp [hb, beq_iff_eq] at hrec ⊢ <;> omega

theorem exchange_eq (l : List Nat) (x0 x1 : Nat) (h0 : x0 < l.length)
    (h1 : x1 < l.length) :
    exchange l x0 x1 = some ((l.set x0 (l.getD x1 0)).set x1 (l.getD x0 0)) := by
  simp [exchange, eval, h0, h1]

theorem exchange_perm (l l' : List Nat) (x0 x1 : Nat)
    (h : exchange l x0 x1 = some l') : List.Perm l' l := by
  by_cases h0 : x0 < l.length
  · by_cases h1 : x1 < l.length
    · rw [exchange_eq l x0 x1 h0 h1] at h
      have hl' : l' = (l.set x0 (l.getD x1 0)).set x1 (l.getD x0 0) :=
        (Option.some_injective _ h).symm
      subst hl'
      rw [List.perm_iff_count]
      intro v
      have hlen : (l.set x0 (l.getD x1 0)).length = l.length := by simp
      have hA := count_set_add l x0 (l.getD x1 0) v h0
      have hB := count_set_add (l.set x0 (l.getD x1 0)) x1 (l.getD x0 0) v
        (by rw [hlen]; exact h1)
      have hC : (l.set x0 (l.getD x1 0)).getD x1 0 = l.getD x1 0 := by
        by_cases he : x0 = x1
        · subst he
          exact getD_set_self l x0 _ h0
        · exact getD_set_ne l x0 x1 _ he
      rw [hC] at hB
      by_cases hv0 : l.getD x0 0 = v <;> by_cases hv1 : l.getD x1 0 = v <;>
        simp [hv0, hv1] at hA hB ⊢ <;> omega
    · simp [exchange, eval, h0, h1] at h
  · simp [exchange, eval, h0] at h

theorem perm_isPerm {l l' : List Nat} (h : List.Perm l' l) (hp : isPerm l) :
    isPerm l' := by
  unfold isPerm at hp ⊢
  rw [h.length_eq]
  exact h.trans hp

theorem exchange_isPerm (l l' : List Nat) (x0 x1 : Nat) (hp : isPerm l)
    (h : exchange l x0 x1 = some l') : isPerm l' :=
  perm_isPerm (exchange_perm l l' x0 x1 h) hp

theorem isPerm_length {l : List Nat} (hp : isPerm l) :
    l.length = (List.range l.length).length := hp.length_eq

theorem isPerm_val_mem {l : List Nat} (hp : isPerm l) {v : Nat} (hv : v ∈ l) :
    v < l.length := by
  have := hp.mem_iff.mp hv
  simpa using this

theorem isPerm_getD_lt {l : List Nat} (hp : isPerm l) {x : Nat}
    (hx : x < l.length) : l.getD x 0 < l.length := by
  apply isPerm_val_mem hp
  rw [List.getD_eq_getElem _ _ hx]
  exact List.getElem_mem hx

theorem isPerm_nodup {l : List Nat} (hp : isPerm l) : l.Nodup :=
  hp.nodup_iff.mpr (List.nodup_range _)

theorem isPerm_getD_inj {l : List Nat} (hp : isPerm l) {x z : Nat}
    (hx : x < l.length) (hz : z < l.length)
    (h : l.getD x 0 = l.getD z 0) : x = z := by
  have hinj := List.nodup_iff_injective_get.mp (isPerm_nodup hp)
  have hget : l.get ⟨x, hx⟩ = l.get ⟨z, hz⟩ := by
    rw [List.getD_eq_getElem _ _ hx, List.getD_eq_getElem _ _ hz] at h
    simpa using h
  have := hinj hget
  exact congrArg Fin.val this

theorem isPerm_surj {l : List Nat} (hp : isPerm l) {j : Nat}
    (hj : j < l.length) : ∃ x, x < l.length ∧ l.getD x 0 = j := by
  have hmem : j ∈ l := hp.mem_iff.mpr (by simpa using hj)
  obtain ⟨x, hx, hxe⟩ := List.getElem_of_mem hmem
  exact ⟨x, hx, by rw [List.getD_eq_getElem _ _ hx]; exact hxe⟩

theorem foldlM_exchange_isPerm (l : List Nat) (rand : Nat → Nat) :
    ∀ (xs : List Nat) (r : List Nat), r.length = l.length → isPerm r →
      (∀ i ∈ xs, i < l.length) →
      ∃ r', xs.foldlM (fun r i => exchange r i (rand i % l.length)) r =
          some r' ∧ isPerm r' ∧ r'.length = l.length := by
  intro xs
  induction xs with
  | nil =>
    intro r hlen hp _
    exact ⟨r, rfl, hp, hlen⟩
  | cons i xs ih =>
    intro r hlen hp hin
    have hi : i < r.length := by
      rw [hlen]
      exact hin i (List.mem_cons_self i xs)
    have hpos : 0 < l.length :=
      lt_of_le_of_lt (Nat.zero_le i) (hin i (List.mem_cons_self i xs))
    have hj : rand i % l.length < r.length := by
      rw [hlen]
      exact Nat.mod_lt _ hpos
    have hex := exchange_eq r i (rand i % l.length) hi hj
    have hp1 : isPerm ((r.set i (r.getD (rand i % l.length) 0)).set
        (rand i % l.length) (r.getD i 0)) :=
      exchange_isPerm r _ i (rand i % l.length) hp hex
    have hlen1 : ((r.set i (r.getD (rand i % l.length) 0)).set
        (rand i % l.length) (r.getD i 0)).length = l.length := by
      simpa using hlen
    obtain ⟨r', hfold, hp', hlen'⟩ := ih _ hlen1 hp1
      (fun j hjm => hin j (List.mem_cons_of_mem i hjm))
    refine ⟨r', ?_, hp', hlen'⟩
    rw [List.foldlM_cons, hex]
    simpa using hfold

theorem random_isPerm (l : List Nat) (rand : Nat → Nat) (hp : isPerm l) :
    ∃ l', random l rand = some l' ∧ isPerm l' := by
  obtain ⟨l', hfold, hp', _⟩ := foldlM_exchange_isPerm l rand
    (List.range l.length) l rfl hp (by simp)
  exact ⟨l', hfold, hp'⟩

theorem map_getD_range (l : List Nat) (d : Nat) :
    (List.range l.length).map (fun i => l.getD i d) = l := by
  apply List.ext_get (by simp)
  intro i h1 h2
  have hi : i < l.length := by simpa using h2
  simp [List.getD_eq_getElem?_getD, List.getElem?_eq_getElem hi]

theorem mapM_eq_some {α β : Type} (f : α → Option β) (g : α → β) :
    ∀ l : List α, (∀ a ∈ l, f a = some (g a)) → l.mapM f = some (l.map g) := by
  intro l
  induction l with
  | nil => intro _; rfl
  | cons a l ih =>
    intro h
    rw [List.mapM_cons, h a (List.mem_cons_self a l),
      ih (fun b hb => h b (List.mem_cons_of_mem a hb))]
    rfl

theorem mul_isPerm (p q : List Nat) (hp : isPerm p) (hq : isPerm q)
    (hl : p.length = q.length) : ∃ r, mul p q = some r ∧ isPerm r := by
  have hg : ∀ x ∈ List.range p.length,
      (do
        let y ← eval q x
        eval p y) = some (p.getD (q.getD x 0) 0) := by
    intro x hx
    have hx' : x < q.length := by
      rw [← hl]
      simpa using hx
    have hq1 : eval q x = some (q.getD x 0) := by simp [eval, hx']
    have hv : q.getD x 0 < p.length := by
      rw [hl]
      exact isPerm_getD_lt hq hx'
    simp only [List.getD_eq_getElem?_getD] at hv
    rw [hq1]
    simp [eval, hv]
  refine ⟨(List.range p.length).map (fun x => p.getD (q.getD x 0) 0), ?_, ?_⟩
  · unfold mul
    rw [if_neg (by omega), mapM_eq_some _ _ _ hg]
  · have e1 : ((List.range q.length).map (fun i => q.getD i 0)).map
        (fun v => p.getD v 0) =
        (List.range q.length).map (fun x => p.getD (q.getD x 0) 0) :=
      List.map_map (fun v => p.getD v 0) (fun i => q.getD i 0)
        (List.range q.length)
    have hstep : (List.range p.length).map (fun x => p.getD (q.getD x 0) 0) =
        q.map (fun v => p.getD v 0) := by
      rw [hl, ← e1, map_getD_range q 0]
    have hqperm : List.Perm (q.map (fun v => p.getD v 0))
        ((List.range q.length).map (fun v => p.getD v 0)) := hq.map _
    have hback : (List.range q.length).map (fun v => p.getD v 0) = p := by
      rw [← hl]
      exact map_getD_range p 0
    unfold isPerm
    have hlenr : ((List.range p.length).map
        (fun x => p.getD (q.getD x 0) 0)).length = p.length := by simp
    rw [hlenr, hstep]
    have h2 : List.Perm ((List.range q.length).map (fun v => p.getD v 0))
        (List.range p.length) := by
      rw [hback]
      exact hp
    exact hqperm.trans h2

theorem foldl_set_length (xs : List Nat) (pk : Nat → Nat) :
    ∀ acc : List Nat,
      (xs.foldl (fun r x => r.set (pk x) x) acc).length = acc.length := by
  induction xs with
  | nil => intro acc; rfl
  | cons x xs ih =>
    intro acc
    rw [List.foldl_cons, ih]
    simp

theorem foldl_set_getD_notin (xs : List Nat) (pk : Nat → Nat) (j : Nat) :
    ∀ acc : List Nat, (∀ x ∈ xs, pk x ≠ j) →
      (xs.foldl (fun r x => r.set (pk x) x) acc).getD j 0 = acc.getD j 0 := by
  induction xs with
  | nil => intro acc _; rfl
  | cons x xs ih =>
    intro acc h
    rw [List.foldl_cons, ih _ (fun z hz => h z (List.mem_cons_of_mem x hz))]
    exact getD_set_ne acc (pk x) j x (h x (List.mem_cons_self x xs))

theorem foldl_set_getD_mem (pk : Nat → Nat) (i : Nat) :
    ∀ (xs : List Nat) (acc : List Nat), i ∈ xs →
      (∀ x ∈ xs, pk x = pk i → x = i) → pk i < acc.length →
      (xs.foldl (fun r x => r.set (pk x) x) acc).getD (pk i) 0 = i := by
  intro xs
  induction xs with
  | nil =>
    intro acc hmem
    cases hmem
  | cons x xs ih =>
    intro acc hmem hinj hlen
    rw [List.foldl_cons]
    by_cases hx : x = i
    · subst hx
      by_cases hm2 : x ∈ xs
      · exact ih _ hm2
          (fun z hz hpz => hinj z (List.mem_cons_of_mem x hz) hpz)
          (by simpa using hlen)
      · rw [foldl_set_getD_notin xs pk (pk x) _
          (fun z hz hpz => hm2 ((hinj z (List.mem_cons_of_mem x hz) hpz) ▸ hz))]
        exact getD_set_self acc (pk x) x hlen
    · have hm2 : i ∈ xs := by
        cases List.mem_cons.mp hmem with
        | inl he => exact absurd he.symm hx
        | inr hm => exact hm
      exact ih _ hm2
        (fun z hz hpz => hinj z (List.mem_cons_of_mem x hz) hpz)
        (by simpa using hlen)

theorem inv_length (p : List Nat) : (inv p).length = p.length := by
  unfold inv
  rw [foldl_set_length]
  simp

theorem inv_getD (p : List Nat) (hp : isPerm p) (x : Nat) (hx : x < p.length) :
    (inv p).getD (p.getD x 0) 0 = x := by
  unfold inv
  exact foldl_set_getD_mem (fun z => p.getD z 0) x (List.range p.length)
    (List.replicate p.length 0) (by simpa using hx)
    (fun z hz hpz => isPerm_getD_inj hp (by simpa using hz) hx hpz)
    (by simpa using isPerm_getD_lt hp hx)

theorem eval_inv_eval (p : List Nat) (hp : isPerm p) (x : Nat)
    (hx : x < p.length) :
    ∃ y, eval p x = some y ∧ eval (inv p) y = some x := by
  refine ⟨p.getD x 0, by simp [eval, hx], ?_⟩
  have hy : p.getD x 0 < (inv p).length := by
    rw [inv_length]
    exact isPerm_getD_lt hp hx
  have h1 := inv_getD p hp x hx
  unfold eval
  rw [if_pos hy, h1]

theorem inv_eval_eval (p : List Nat) (hp : isPerm p) (j : Nat)
    (hj : j < p.length) :
    ∃ x, eval (inv p) j = some x ∧ eval p x = some j := by
  obtain ⟨x, hx, hxe⟩ := isPerm_surj hp hj
  have hxe' : p[x] = j := by
    rw [List.getD_eq_getElem _ _ hx] at hxe
    exact hxe
  refine ⟨x, ?_, by simp [eval, hx, hxe']⟩
  have hj' : j < (inv p).length := by
    rw [inv_length]
    exact hj
  have hval : (inv p).getD j 0 = x := by
    rw [← hxe]
    exact inv_getD p hp x hx
  rw [List.getD_eq_getElem _ _ hj'] at hval
  simp [eval, hj', hval]

theorem inv_key (p : List Nat) (hp : isPerm p) (j : Nat) (hj : j < p.length) :
    p.getD ((inv p).getD j 0) 0 = j ∧ (inv p).getD j 0 < p.length := by
  obtain ⟨x, hx, hxe⟩ := isPerm_surj hp hj
  have hxv : (inv p).getD j 0 = x := by
    rw [← hxe]
    exact inv_getD p hp x hx
  exact ⟨by rw [hxv, hxe], by rw [hxv]; exact hx⟩

theorem inv_isPerm (p : List Nat) (hp : isPerm p) : isPerm (inv p) := by
  have hlen := inv_length p
  have hnodup : (inv p).Nodup := by
    rw [List.nodup_iff_injective_get]
    intro a b hab
    have ha : (a : Nat) < p.length := by
      rw [← hlen]
      exact a.isLt
    have hb : (b : Nat) < p.length := by
      rw [← hlen]
      exact b.isLt
    have hga : (inv p).getD (a : Nat) 0 = (inv p).get a := by
      rw [List.getD_eq_getElem _ _ a.isLt]
      simp
    have hgb : (inv p).getD (b : Nat) 0 = (inv p).get b := by
      rw [List.getD_eq_getElem _ _ b.isLt]
      simp
    have hkeya := (inv_key p hp (a : Nat) ha).1
    have hkeyb := (inv_key p hp (b : Nat) hb).1
    have hv : (a : Nat) = (b : Nat) := by
      rw [← hkeya, ← hkeyb, hga, hgb, hab]
    exact Fin.ext hv
  have hsub : (inv p) ⊆ List.range (inv p).length := by
    intro v hv
    obtain ⟨idx, hidx, hidxe⟩ := List.getElem_of_mem hv
    have hidx' : idx < p.length := by
      rw [← hlen]
      exact hidx
    have hrange := (inv_key p hp idx hidx').2
    rw [List.getD_eq_getElem _ _ hidx] at hrange
    rw [hidxe] at hrange
    rw [List.mem_range, hlen]
    exact hrange
  have hsp := List.subperm_of_subset hnodup hsub
  exact hsp.perm_of_length_le (by simp)

end Permutation

/-- C6: every `Permutation` operation preserves bijectivity: starting
from value arrays containing each of `0..n-1` exactly once (`isPerm`),
the result of `setDimension`, `exchange` (with in-range arguments, i.e.
when it does not fail), `random` (for every random sequence), `mul`,
`inv` and `swap` again contains each of `0..n-1` exactly once. -/
theorem permutation_ops_preserve_bijectivity :
    (∀ (n : Int) (l : List Nat), Permutation.setDimension n = some l →
      Permutation.isPerm l) ∧
    (∀ (l l' : List Nat) (x0 x1 : Nat), Permutation.isPerm l →
      Permutation.exchange l x0 x1 = some l' → Permutation.isPerm l') ∧
    (∀ (l : List Nat) (rand : Nat → Nat), Permutation.isPerm l →
      ∃ l', Permutation.random l rand = some l' ∧ Permutation.isPerm l') ∧
    (∀ (p q : List Nat), Permutation.isPerm p → Permutation.isPerm q →
      p.length = q.length →
      ∃ r, Permutation.mul p q = some r ∧ Permutation.isPerm r) ∧
    (∀ p : List Nat, Permutation.isPerm p →
      Permutation.isPerm (Permutation.inv p)) ∧
    (∀ p q : List Nat, Permutation.isPerm p → Permutation.isPerm q →
      Permutation.isPerm (Permutation.swap p q).1 ∧
        Permutation.isPerm (Permutation.swap p q).2) := by
  refine ⟨?_, ?_, ?_, ?_, ?_, ?_⟩
  · intro n l h
    unfold Permutation.setDimension at h
    by_cases hn : n < 0
    · rw [if_pos hn] at h
      cases h
    · rw [if_neg hn] at h
      have : l = List.range n.toNat := (Option.some_injective _ h).symm
      subst this
      unfold Permutation.isPerm
      rw [List.length_range]
  · exact fun l l' x0 x1 hp h => Permutation.exchange_isPerm l l' x0 x1 hp h
  · exact fun l rand hp => Permutation.random_isPerm l rand hp
  · exact fun p q hp hq hl => Permutation.mul_isPerm p q hp hq hl
  · exact fun p hp => Permutation.inv_isPerm p hp
  · exact fun p q hp hq => ⟨hq, hp⟩

/-- Witness for C6: each operation applied to a concrete bijection —
`setDimension 3`, `exchange [1,2,0] 0 2 = some [0,2,1]`,
`random [1,0]`, `mul [1,0] [0,1]`, `inv [2,0,1]`, `swap [1,0] [0,1]`. -/
theorem permutation_ops_preserve_bijectivity_witness :
    Permutation.isPerm [0, 1, 2] ∧
    Permutation.isPerm [0, 2, 1] ∧
    (∃ l', Permutation.random [1, 0] (fun i => i + 1) = some l' ∧
      Permutation.isPerm l') ∧
    (∃ r, Permutation.mul [1, 0] [0, 1] = some r ∧ Permutation.isPerm r) ∧
    Permutation.isPerm (Permutation.inv [2, 0, 1]) ∧
    (Permutation.isPerm (Permutation.swap [1, 0] [0, 1]).1 ∧
      Permutation.isPerm (Permutation.swap [1, 0] [0, 1]).2) :=
  ⟨permutation_ops_preserve_bijectivity.1 3 [0, 1, 2] (by decide),
   permutation_ops_preserve_bijectivity.2.1 [1, 2, 0] [0, 2, 1] 0 2
     (by decide) (by decide),
   permutation_ops_preserve_bijectivity.2.2.1 [1, 0] (fun i => i + 1)
     (by decide),
   permutation_ops_preserve_bijectivity.2.2.2.1 [1, 0] [0, 1]
     (by decide) (by decide) (by decide),
   permutation_ops_preserve_bijectivity.2.2.2.2.1 [2, 0, 1] (by decide),
   permutation_ops_preserve_bijectivity.2.2.2.2.2 [1, 0] [0, 1]
     (by decide) (by decide)⟩

/-- C7: for every valid permutation `P` of dimension `n`, the inverse
`R = inv(P)` satisfies `R(P(x)) = x` and `P(R(y)) = y` for all
`x, y ∈ [0, n)`.  (The C++ aliasing guard — `inv(P, P)` copies `P`
before writing `R` — makes the aliased call compute the same values as
the pure function `inv` modelled here, so this covers `inv(P, P)` as
well.) -/
theorem permutation_inv_round_trip (p : List Nat)
    (hp : Permutation.isPerm p) :
    (∀ x, x < p.length → ∃ y, Permutation.eval p x = some y ∧
      Permutation.eval (Permutation.inv p) y = some x) ∧
    (∀ y, y < p.length → ∃ x,
      Permutation.eval (Permutation.inv p) y = some x ∧
      Permutation.eval p x = some y) :=
  ⟨fun x hx => Permutation.eval_inv_eval p hp x hx,
   fun y hy => Permutation.inv_eval_eval p hp y hy⟩

/-- Witness for C7 on the concrete permutation `[2, 0, 1]`. -/
theorem permutation_inv_round_trip_witness :
    (∃ y, Permutation.eval [2, 0, 1] 1 = some y ∧
      Permutation.eval (Permutation.inv [2, 0, 1]) y = some 1) ∧
    (∃ x, Permutation.eval (Permutation.inv [2, 0, 1]) 2 = some x ∧
      Permutation.eval [2, 0, 1] x = some 2) :=
  ⟨(permutation_inv_round_trip [2, 0, 1] (by decide)).1 1 (by decide),
   (permutation_inv_round_trip [2, 0, 1] (by decide)).2 2 (by decide)⟩

/-- C8: `open` rejects with a typed `StateError` — without building an
unlocking set or recovering a polynomial — in each of three independent
scenarios: vault not enrolled, vault still encrypted, and slow-down
factor not the identity value `1`, each with all other preconditions
valid. -/
theorem open_rejects_with_state_error
    (F : Type) [Field F] [DecidableEq F] (v : VaultState F)
    (quantized : List F) (draws : Nat → List Nat) (finit : List F) :
    (v.isEnrolled = false →
      openVault v quantized draws finit = .error .notEnrolled) ∧
    (v.isEnrolled = true → v.isEncrypted = true →
      openVault v quantized draws finit = .error .stillEncrypted) ∧
    (v.isEnrolled = true → v.isEncrypted = false → v.slowDownFactor ≠ 1 →
      openVault v quantized draws finit = .error .unsupportedSlowDown) := by
  refine ⟨?_, ?_, ?_⟩
  · intro h1
    unfold openVault
    rw [if_pos h1]
  · intro h1 h2
    unfold openVault
    rw [if_neg (by simp [h1]), if_pos h2]
  · intro h1 h2 h3
    unfold openVault
    rw [if_neg (by simp [h1]), if_neg (by simp [h2]), if_pos h3]

/-- Witness for C8: three concrete `GF2` vault states, each violating
exactly one guard with all other preconditions valid. -/
theorem open_rejects_with_state_error_witness :
    openVault (F := GF2)
        { isEnrolled := false, isEncrypted := false, slowDownFactor := 1,
          vaultPoly := [1], reorder := fun a => a, k := 1, D := 1,
          storedHash := [] }
        [1] (fun _ => [0]) [] = .error .notEnrolled ∧
    openVault (F := GF2)
        { isEnrolled := true, isEncrypted := true, slowDownFactor := 1,
          vaultPoly := [1], reorder := fun a => a, k := 1, D := 1,
          storedHash := [] }
        [1] (fun _ => [0]) [] = .error .stillEncrypted ∧
    openVault (F := GF2)
        { isEnrolled := true, isEncrypted := false, slowDownFactor := 2,
          vaultPoly := [1], reorder := fun a => a, k := 1, D := 1,
          storedHash := [] }
        [1] (fun _ => [0]) [] = .error .unsupportedSlowDown :=
  ⟨(open_rejects_with_state_error GF2
      { isEnrolled := false, isEncrypted := false, slowDownFactor := 1,
        vaultPoly := [1], reorder := fun a => a, k := 1, D := 1,
        storedHash := [] } [1] (fun _ => [0]) []).1 rfl,
   (open_rejects_with_state_error GF2
      { isEnrolled := true, isEncrypted := true, slowDownFactor := 1,
        vaultPoly := [1], reorder := fun a => a, k := 1, D := 1,
        storedHash := [] } [1] (fun _ => [0]) []).2.1 rfl rfl,
   (open_rejects_with_state_error GF2
      { isEnrolled := true, isEncrypted := false, slowDownFactor := 2,
        vaultPoly := [1], reorder := fun a => a, k := 1, D := 1,
        storedHash := [] } [1] (fun _ => [0]) []).2.2 rfl rfl
     (by decide)⟩

/-- C9: `getf0` returns the reserved sentinel `0xFFFFFFFF` if and only
if the underlying `open` call reports failure (returns `false`); when
`open` reports success, `getf0` returns the `uint32` encoding of the
recovered polynomial's constant term `f(0)`.  The hypothesis `henc`
states that no valid field element encodes to the all-ones 32-bit
pattern — the sense in which the sentinel is reserved. -/
theorem getf0_sentinel_iff_open_failure
    (F : Type) [Field F] [DecidableEq F] (enc : F → Nat)
    (henc : ∀ a : F, enc a ≠ 4294967295) (v : VaultState F)
    (quantized : List F) (draws : Nat → List Nat) :
    (getf0 enc v quantized draws = .ok 4294967295 ↔
      ∃ fOut, openVault v quantized draws [] = .ok (false, fOut)) ∧
    (∀ fOut : List F, openVault v quantized draws [] = .ok (true, fOut) →
      getf0 enc v quantized draws = .ok (enc (polyEval fOut 0))) := by
  cases hov : openVault v quantized draws [] with
  | error e =>
    refine ⟨⟨fun hg => ?_, fun hex => ?_⟩, fun f2 hok => ?_⟩
    · simp [getf0, hov] at hg
    · obtain ⟨f2, hok⟩ := hex
      cases hok
    · cases hok
  | ok r =>
    obtain ⟨b, fOut⟩ := r
    cases b with
    | false =>
      refine ⟨⟨fun _ => ⟨fOut, rfl⟩, fun _ => ?_⟩, fun f2 hok => ?_⟩
      · simp [getf0, hov]
      · simp at hok
    | true =>
      refine ⟨⟨fun hg => ?_, fun hex => ?_⟩, fun f2 hok => ?_⟩
      · simp [getf0, hov] at hg
        exact absurd hg (henc _)
      · obtain ⟨f2, hok⟩ := hex
        simp at hok
      · simp only [Except.ok.injEq, Prod.mk.injEq, true_and] at hok
        subst hok
        simp [getf0, hov]

/-- Witness for C9 over `GF2` with the encoding `O ↦ 0`, `I ↦ 1` (which
never produces the sentinel) and a valid enrolled vault. -/
theorem getf0_sentinel_iff_open_failure_witness :
    (getf0 (F := GF2) (fun a => if a = 1 then 1 else 0)
        { isEnrolled := true, isEncrypted := false, slowDownFactor := 1,
          vaultPoly := [1], reorder := fun a => a, k := 1, D := 1,
          storedHash := [] } [1] (fun _ => [0]) = .ok 4294967295 ↔
      ∃ fOut, openVault (F := GF2)
        { isEnrolled := true, isEncrypted := false, slowDownFactor := 1,
          vaultPoly := [1], reorder := fun a => a, k := 1, D := 1,
          storedHash := [] } [1] (fun _ => [0]) [] = .ok (false, fOut)) ∧
    (∀ fOut : List GF2, openVault (F := GF2)
        { isEnrolled := true, isEncrypted := false, slowDownFactor := 1,
          vaultPoly := [1], reorder := fun a => a, k := 1, D := 1,
          storedHash := [] } [1] (fun _ => [0]) [] = .ok (true, fOut) →
      getf0 (F := GF2) (fun a => if a = 1 then 1 else 0)
        { isEnrolled := true, isEncrypted := false, slowDownFactor := 1,
          vaultPoly := [1], reorder := fun a => a, k := 1, D := 1,
          storedHash := [] } [1] (fun _ => [0]) =
        .ok (if polyEval fOut 0 = 1 then 1 else 0)) :=
  getf0_sentinel_iff_open_failure GF2 (fun a => if a = 1 then 1 else 0)
    (by decide)
    { isEnrolled := true, isEncrypted := false, slowDownFactor := 1,
      vaultPoly := [1], reorder := fun a => a, k := 1, D := 1,
      storedHash := [] } [1] (fun _ => [0])

end Thimble
